import Mathlib

/-!
# Verification of the `rle_vec` run-length encoded vector

A shallow embedding of `src/lib.rs` from the `rle_vec` crate.  The table
stores a list of run descriptors `InternalRun` (a value together with the
cumulative, 0-based, inclusive end offset of its run).  All operations are
translated directly from the Rust source:

* fallible operations (those that can panic) return `Except String`, the
  error carrying the panic message;
* `usize` is modelled as `Nat`; the additions performed by `push_n` are
  modelled both idealized (`push_n`, unbounded `Nat`) and with the wrapping
  two's-complement semantics of a release build (`push_n_w`, reduction
  modulo `2 ^ 64`), which is relevant to the overflow claim;
* the `end -= 1` decrements in `remove` use truncated `Nat` subtraction:
  the only descriptor whose `end` can be `0` there is a length-1 first run,
  which is deleted by the very same call before it can be observed, so the
  truncated result agrees with the wrapped `usize` result on every
  surviving descriptor of a valid table;
* the value iterator and the run iterator are modelled by their `next`
  step functions driven by a fuel counter that bounds the number of
  iterations (`len` resp. `runs.len()` steps always suffice).
-/

set_option autoImplicit false
set_option linter.unusedSectionVars false
set_option linter.unnecessarySimpa false
set_option linter.unnecessarySeqFocus false
set_option linter.unusedVariables false

namespace RleSpec

/-- Internal run descriptor: a value plus the cumulative 0-based inclusive
end offset of its run (`struct InternalRun` in the source). -/
structure InternalRun (α : Type) where
  end_ : Nat
  value : α
deriving DecidableEq

/-- The run-length encoded vector: an ordered list of run descriptors
(`struct RleVec`). -/
structure RleVec (α : Type) where
  runs : List (InternalRun α)
deriving DecidableEq

variable {α : Type}

/-- Model of `RleVec::new`. -/
def RleVec.new : RleVec α := ⟨[]⟩

/-- Model of `RleVec::len`: `0` if there are no runs, else the last run's `end + 1`. -/
def RleVec.len (rle : RleVec α) : Nat :=
  match rle.runs.getLast? with
  | some run => run.end_ + 1
  | none => 0

/-- Model of `RleVec::is_empty`. -/
def RleVec.is_empty (rle : RleVec α) : Bool :=
  rle.runs.isEmpty

/-- Model of `RleVec::clear`: removes all runs. -/
def RleVec.clear (_rle : RleVec α) : RleVec α := ⟨[]⟩

/-- Model of `RleVec::runs_len`: the number of stored runs. -/
def RleVec.runs_len (rle : RleVec α) : Nat :=
  rle.runs.length

/-- Model of `RleVec::starts`: 0-based start offsets of the runs. -/
def RleVec.starts (rle : RleVec α) : List Nat :=
  if rle.is_empty then []
  else 0 :: (rle.runs.take (rle.runs_len - 1)).map (fun r => r.end_ + 1)

/-- Model of `RleVec::ends`: 0-based end offsets of the runs. -/
def RleVec.ends (rle : RleVec α) : List Nat :=
  rle.runs.map (fun r => r.end_)

/-- The panic message used by `run_index` (and by vector indexing). -/
def oobMsg (len index : Nat) : String :=
  "index out of bounds: the len is " ++ toString len ++ " but the index is "
    ++ toString index

/-- The loop of `slice::binary_search_by` with comparator
`run.end.cmp(&target)`.  `fuel` bounds the number of iterations; the
searched span `right - left` shrinks every iteration, so starting fuel
`runs.length` always suffices. -/
def bsearchGo (runs : List (InternalRun α)) (target : Nat) :
    Nat → Nat → Nat → Except Nat Nat
  | 0, left, _right => .error left
  | fuel + 1, left, right =>
    if left < right then
      let mid := left + (right - left) / 2
      match runs[mid]? with
      | none => .error left
      | some run =>
        if run.end_ < target then bsearchGo runs target fuel (mid + 1) right
        else if target < run.end_ then bsearchGo runs target fuel left mid
        else .ok mid
    else .error left

/-- Model of `RleVec::run_index`: binary search over the run end offsets; panics
(error) when the index is at or past the logical length. -/
def RleVec.run_index (rle : RleVec α) (index : Nat) : Except String Nat :=
  match bsearchGo rle.runs index rle.runs.length 0 rle.runs.length with
  | .ok i => .ok i
  | .error i =>
    if i < rle.runs.length then .ok i
    else .error (oobMsg rle.len index)

/-- Model of `RleVec::index_info`: `(run position, run start, run end)` of the run
owning a logical index. -/
def RleVec.index_info (rle : RleVec α) (index : Nat) :
    Except String (Nat × Nat × Nat) :=
  match rle.run_index index with
  | .error e => .error e
  | .ok 0 =>
    match rle.runs[0]? with
    | some run => .ok (0, 0, run.end_)
    | none => .error (oobMsg rle.runs.length 0)
  | .ok (q + 1) =>
    match rle.runs[q]?, rle.runs[q + 1]? with
    | some prev, some cur => .ok (q + 1, prev.end_ + 1, cur.end_)
    | _, _ => .error (oobMsg rle.runs.length (q + 1))

/-- The `Index` impl: `&self.runs[self.run_index(index)].value`. -/
def RleVec.index (rle : RleVec α) (i : Nat) : Except String α :=
  match rle.run_index i with
  | .error e => .error e
  | .ok p =>
    match rle.runs[p]? with
    | some run => .ok run.value
    | none => .error (oobMsg rle.runs.length p)

variable [DecidableEq α]

/-- Model of `RleVec::push_n` under overflow-checked (no-wrap) arithmetic:
extend the last run when the value matches, otherwise append a fresh
descriptor.  The unbounded `Nat` addition agrees with the machine exactly
on those call sequences in which no cumulative end ever exceeds
`usize::MAX` (in an overflow-checked build any other sequence aborts); the
wrapping release-build semantics of the same source line is `push_n_w`
below, and the two models differ precisely when a cumulative end wraps. -/
def RleVec.push_n (rle : RleVec α) (n : Nat) (value : α) : RleVec α :=
  if n = 0 then rle
  else
    match rle.runs.getLast? with
    | some last =>
      if last.value = value then
        ⟨rle.runs.dropLast ++ [⟨last.end_ + n, last.value⟩]⟩
      else
        ⟨rle.runs ++ [⟨last.end_ + n, value⟩]⟩
    | none => ⟨[⟨n - 1, value⟩]⟩

/-- Model of `RleVec::push`, which is `push_n(1, value)`. -/
def RleVec.push (rle : RleVec α) (value : α) : RleVec α :=
  rle.push_n 1 value

/-- The `usize` modulus: end offsets are 64-bit machine words. -/
def usizeSize : Nat := 2 ^ 64

/-- Model of `RleVec::push_n` with the wrapping arithmetic of a default release
build: `last.end += n` and `last.end + n` reduce modulo `2 ^ 64` instead of
failing when the cumulative end overflows. -/
def RleVec.push_n_w (rle : RleVec α) (n : Nat) (value : α) : RleVec α :=
  if n = 0 then rle
  else
    match rle.runs.getLast? with
    | some last =>
      if last.value = value then
        ⟨rle.runs.dropLast ++ [⟨(last.end_ + n) % usizeSize, last.value⟩]⟩
      else
        ⟨rle.runs ++ [⟨(last.end_ + n) % usizeSize, value⟩]⟩
    | none => ⟨[⟨n - 1, value⟩]⟩

/-- Model of `FromIterator<T>`: push every element in order. -/
def RleVec.from_iter (l : List α) : RleVec α :=
  l.foldl (fun rle v => rle.push v) RleVec.new

/-- Model of `RleVec::from_slice`, which collects the cloned elements, i.e. `from_iter`. -/
def RleVec.from_slice (l : List α) : RleVec α :=
  RleVec.from_iter l

/-- Model of `Iter::next`: emit the current run's value, step the logical index, and
advance to the next run once the index passes the current run's end. -/
def RleVec.iterNext (rle : RleVec α) (run_index idx : Nat) :
    Option (α × Nat × Nat) :=
  if rle.is_empty ∨ idx = rle.len then none
  else
    match rle.runs[run_index]? with
    | none => none
    | some run =>
      if run.end_ < idx + 1 then some (run.value, run_index + 1, idx + 1)
      else some (run.value, run_index, idx + 1)

/-- Driving `Iter::next` to exhaustion; `fuel` bounds the number of steps
(`next` advances `idx` every step, so `len - idx` steps always suffice). -/
def RleVec.iterCollect (rle : RleVec α) : Nat → Nat → Nat → List α
  | 0, _, _ => []
  | fuel + 1, run_index, idx =>
    match rle.iterNext run_index idx with
    | none => []
    | some (v, ri, i) => v :: rle.iterCollect fuel ri i

/-- Model of `RleVec::to_vec`: collect the value iterator started at the beginning. -/
def RleVec.to_vec (rle : RleVec α) : List α :=
  rle.iterCollect rle.len 0 0

/-- Model of `RleVec::set`: replace the value at a logical index, splitting and
merging runs as needed. -/
def RleVec.set (rle : RleVec α) (index : Nat) (value : α) :
    Except String (RleVec α) :=
  match rle.index_info index with
  | .error e => .error e
  | .ok (p, start, end_) =>
    match rle.runs[p]? with
    | none => .error (oobMsg rle.runs.length p)
    | some rp =>
      if rp.value = value then .ok rle
      else if end_ - start = 0 then
        -- a size 1 run is replaced with the new value or joined with a neighbour
        let st :=
          if 0 < p then
            match rle.runs[p - 1]? with
            | some prev =>
              if prev.value = value then
                ((rle.runs.eraseIdx p).set (p - 1) ⟨prev.end_ + 1, prev.value⟩,
                  p - 1)
              else (rle.runs, p)
            | none => (rle.runs, p)
          else (rle.runs, p)
        let runs1 := st.1
        let p1 := st.2
        let write : Except String (RleVec α) :=
          match runs1[p1]? with
          | some r1 => .ok ⟨runs1.set p1 ⟨r1.end_, value⟩⟩
          | none => .error (oobMsg runs1.length p1)
        if p1 < runs1.length - 1 then
          match runs1[p1 + 1]? with
          | some nxt =>
            if nxt.value = value then .ok ⟨runs1.eraseIdx p1⟩ else write
          | none => write
        else write
      else if index = start then
        -- run size > 1, index at the start boundary
        if 0 < p then
          match rle.runs[p - 1]? with
          | some prev =>
            if prev.value = value then
              .ok ⟨rle.runs.set (p - 1) ⟨prev.end_ + 1, prev.value⟩⟩
            else .ok ⟨rle.runs.insertIdx p ⟨start, value⟩⟩
          | none => .error (oobMsg rle.runs.length (p - 1))
        else .ok ⟨rle.runs.insertIdx 0 ⟨0, value⟩⟩
      else if index = end_ then
        -- run size > 1, index at the end boundary
        let runs1 := rle.runs.set p ⟨rp.end_ - 1, rp.value⟩
        if p < runs1.length - 1 then
          match runs1[p + 1]? with
          | some nxt =>
            if nxt.value = value then .ok ⟨runs1⟩
            else .ok ⟨runs1.insertIdx (p + 1) ⟨end_, value⟩⟩
          | none => .ok ⟨runs1.insertIdx (p + 1) ⟨end_, value⟩⟩
        else .ok ⟨runs1.insertIdx (p + 1) ⟨end_, value⟩⟩
      else
        -- run size > 1, interior index: split the current run in three
        let runs1 := rle.runs.set p ⟨index - 1, rp.value⟩
        let runs2 := runs1.insertIdx (p + 1) ⟨index, value⟩
        .ok ⟨runs2.insertIdx (p + 2) ⟨end_, rp.value⟩⟩

/-- Model of `RleVec::insert`: insert a value at a logical index, shifting all later
elements right by one. -/
def RleVec.insert (rle : RleVec α) (index : Nat) (value : α) :
    Except String (RleVec α) :=
  if index = rle.len then .ok (rle.push value)
  else
    match rle.index_info index with
    | .error e => .error e
    | .ok (p, start, end_) =>
      -- increment all run ends from position p
      let runs1 := rle.runs.take p
        ++ (rle.runs.drop p).map (fun r => ⟨r.end_ + 1, r.value⟩)
      match runs1[p]? with
      | none => .error (oobMsg runs1.length p)
      | some rp =>
        if rp.value = value then .ok ⟨runs1⟩
        else if index = start then
          if 0 < p then
            match runs1[p - 1]? with
            | some prev =>
              if prev.value = value then
                .ok ⟨runs1.set (p - 1) ⟨prev.end_ + 1, prev.value⟩⟩
              else .ok ⟨runs1.insertIdx p ⟨index, value⟩⟩
            | none => .error (oobMsg runs1.length (p - 1))
          else .ok ⟨runs1.insertIdx p ⟨index, value⟩⟩
        else
          -- split the current run
          let runs2 := runs1.set p ⟨index - 1, rp.value⟩
          let runs3 := runs2.insertIdx (p + 1) ⟨index, value⟩
          .ok ⟨runs3.insertIdx (p + 2) ⟨end_ + 1, rp.value⟩⟩

/-- Model of `RleVec::remove`: delete the element at a logical index and return it,
shifting all later elements left by one.  The translation keeps the
out-of-bounds vector access of the source (the `self.runs[p]` read in the
fuse check, reachable when the deleted length-1 run was the last run of a
table that still has more than two runs afterwards). -/
def RleVec.remove (rle : RleVec α) (index : Nat) :
    Except String (α × RleVec α) :=
  match rle.index_info index with
  | .error e => .error e
  | .ok (p, start, end_) =>
    -- decrement all run ends from position p
    let runs1 := rle.runs.take p
      ++ (rle.runs.drop p).map (fun r => ⟨r.end_ - 1, r.value⟩)
    if end_ - start = 0 then
      match runs1[p]? with
      | none => .error (oobMsg runs1.length p)
      | some removed =>
        let runs2 := runs1.eraseIdx p
        if 0 < p ∧ 2 < runs2.length then
          match runs2[p - 1]? with
          | none => .error (oobMsg runs2.length (p - 1))
          | some prev =>
            match runs2[p]? with
            | none => .error (oobMsg runs2.length p)
            | some after =>
              if prev.value = after.value then
                .ok (removed.value,
                  ⟨(runs2.set (p - 1) ⟨after.end_, prev.value⟩).eraseIdx p⟩)
              else .ok (removed.value, ⟨runs2⟩)
        else .ok (removed.value, ⟨runs2⟩)
    else
      match runs1[p]? with
      | some run => .ok (run.value, ⟨runs1⟩)
      | none => .error (oobMsg runs1.length p)

/-- A single mutating operation of the public interface. -/
inductive Op (α : Type) where
  | push : α → Op α
  | push_n : Nat → α → Op α
  | set : Nat → α → Op α
  | insert : Nat → α → Op α
  | remove : Nat → Op α
deriving DecidableEq

/-- Apply one operation; panics become errors. -/
def applyOp (rle : RleVec α) : Op α → Except String (RleVec α)
  | .push v => .ok (rle.push v)
  | .push_n n v => .ok (rle.push_n n v)
  | .set i v => rle.set i v
  | .insert i v => rle.insert i v
  | .remove i => (rle.remove i).map Prod.snd

/-- Apply a sequence of operations starting from the empty table, in the
overflow-checked model (`push_n`): faithful to the machine whenever no
cumulative end offset overflows `usize`. -/
def applyOps (ops : List (Op α)) : Except String (RleVec α) :=
  ops.foldlM applyOp RleVec.new

/-! ## Well-formedness scaffolding

`wfFrom s runs` states that the first run of `runs` ends no earlier than
`s` and that the end offsets are strictly increasing from there on; with
`s = 0` it is exactly the strict monotonicity invariant of the table. -/

/-- Head end is at least `s`, ends strictly increase afterwards. -/
def wfFrom : Nat → List (InternalRun α) → Bool
  | _, [] => true
  | s, r :: rest => decide (s ≤ r.end_) && wfFrom (r.end_ + 1) rest

/-- The table invariant: run ends strictly increase (all runs non-empty and
contiguous). -/
def RleVec.Valid (rle : RleVec α) : Prop :=
  wfFrom 0 rle.runs = true

instance (rle : RleVec α) : Decidable rle.Valid :=
  inferInstanceAs (Decidable (wfFrom 0 rle.runs = true))

/-- A list of naturals is strictly increasing between adjacent entries. -/
def strictIncr : List Nat → Bool
  | a :: b :: rest => decide (a < b) && strictIncr (b :: rest)
  | _ => true

/-- No two adjacent runs carry equal values (run-minimality). -/
def distinctAdj : List (InternalRun α) → Bool
  | a :: b :: rest => decide (a.value ≠ b.value) && distinctAdj (b :: rest)
  | _ => true

/-- The start offset of whatever follows `runs`: the last end plus one, or
`s` when there are no runs. -/
def nextStart (s : Nat) (runs : List (InternalRun α)) : Nat :=
  match runs.getLast? with
  | some r => r.end_ + 1
  | none => s

/-- Mathematical expansion of a run list starting at offset `s`: each run
contributes `end + 1 - s` copies of its value. -/
def expandFrom : Nat → List (InternalRun α) → List α
  | _, [] => []
  | s, r :: rest => List.replicate (r.end_ + 1 - s) r.value ++ expandFrom (r.end_ + 1) rest

/-- The logical sequence represented by a table. -/
def RleVec.expand (rle : RleVec α) : List α :=
  expandFrom 0 rle.runs

/-- Position of the first run whose end offset is at least `target`
(`runs.length` when there is none). -/
def lowerB (target : Nat) : List (InternalRun α) → Nat
  | [] => 0
  | r :: rest => if target ≤ r.end_ then 0 else lowerB target rest + 1

/-! ### Generic list surgery lemmas -/

theorem getAt_mid {β : Type} (A : List β) (b : β) (B : List β) :
    (A ++ b :: B)[A.length]? = some b := by
  induction A with
  | nil => simp
  | cons a A ih => simpa using ih

theorem getBefore_mid {β : Type} {A : List β} (C : List β) {j : Nat}
    (hj : j < A.length) : (A ++ C)[j]? = A[j]? := by
  rw [List.getElem?_append, if_pos hj]

theorem set_mid {β : Type} (A : List β) (b c : β) (B : List β) :
    (A ++ b :: B).set A.length c = A ++ c :: B := by
  induction A with
  | nil => rfl
  | cons a A ih => simpa using ih

theorem erase_mid {β : Type} (A : List β) (b : β) (B : List β) :
    (A ++ b :: B).eraseIdx A.length = A ++ B := by
  induction A with
  | nil => rfl
  | cons a A ih => simpa using ih

theorem insert_mid {β : Type} (A : List β) (x : β) (C : List β) :
    (A ++ C).insertIdx A.length x = A ++ x :: C := by
  induction A with
  | nil => rfl
  | cons a A ih => simpa [List.insertIdx] using ih

theorem getLast_mid {β : Type} {A : List β} (hA : A ≠ []) (C : List β) :
    (A ++ C)[A.length - 1]? = A.getLast? := by
  rw [getBefore_mid C (by cases A with | nil => exact absurd rfl hA | cons a A => simp),
    List.getLast?_eq_getElem?]

/-- Split a list at a position known to hold an element. -/
theorem decompose_at {β : Type} {l : List β} {p : Nat} {b : β}
    (h : l[p]? = some b) :
    l = l.take p ++ b :: l.drop (p + 1) ∧ (l.take p).length = p := by
  obtain ⟨hlt, hb⟩ := List.getElem?_eq_some.mp h
  constructor
  · conv_lhs => rw [← List.take_append_drop p l]
    rw [List.drop_eq_getElem_cons hlt, hb]
  · rw [List.length_take]
    omega

/-! ### wfFrom lemmas -/

theorem wfFrom_cons {s : Nat} {r : InternalRun α} {rest : List (InternalRun α)} :
    wfFrom s (r :: rest) = true ↔ s ≤ r.end_ ∧ wfFrom (r.end_ + 1) rest = true := by
  simp [wfFrom]

theorem wfFrom_mono {s s' : Nat} {l : List (InternalRun α)}
    (h : wfFrom s l = true) (hs : s' ≤ s) : wfFrom s' l = true := by
  cases l with
  | nil => rfl
  | cons r rest =>
    rw [wfFrom_cons] at h ⊢
    exact ⟨le_trans hs h.1, h.2⟩

theorem nextStart_nil {s : Nat} : nextStart s ([] : List (InternalRun α)) = s := rfl

theorem nextStart_cons {s : Nat} {r : InternalRun α} {rest : List (InternalRun α)} :
    nextStart s (r :: rest) = nextStart (r.end_ + 1) rest := by
  cases rest with
  | nil => rfl
  | cons b l =>
    cases h : (b :: l).getLast? with
    | none => exact absurd (List.getLast?_eq_none_iff.mp h) (by simp)
    | some x => simp [nextStart, List.getLast?_cons_cons, h]

theorem nextStart_concat {s : Nat} {l : List (InternalRun α)} {r : InternalRun α} :
    nextStart s (l ++ [r]) = r.end_ + 1 := by
  simp [nextStart, List.getLast?_concat]

theorem le_nextStart {s : Nat} {l : List (InternalRun α)}
    (h : wfFrom s l = true) : s ≤ nextStart s l := by
  induction l generalizing s with
  | nil => exact le_refl s
  | cons r rest ih =>
    rw [wfFrom_cons] at h
    rw [nextStart_cons]
    exact le_trans (Nat.le_succ_of_le h.1) (ih h.2)

theorem wfFrom_append {s : Nat} {xs ys : List (InternalRun α)} :
    wfFrom s (xs ++ ys) = true ↔
      wfFrom s xs = true ∧ wfFrom (nextStart s xs) ys = true := by
  induction xs generalizing s with
  | nil => simp [wfFrom, nextStart_nil]
  | cons x xs ih =>
    rw [List.cons_append, wfFrom_cons, wfFrom_cons, ih, nextStart_cons, and_assoc]

theorem wfFrom_le_end {s : Nat} {l : List (InternalRun α)} (h : wfFrom s l = true)
    {j : Nat} {r : InternalRun α} (hr : l[j]? = some r) : s ≤ r.end_ := by
  induction l generalizing s j with
  | nil => simp at hr
  | cons x xs ih =>
    rw [wfFrom_cons] at h
    cases j with
    | zero =>
      rw [List.getElem?_cons_zero, Option.some_inj] at hr
      exact hr ▸ h.1
    | succ j =>
      simp only [List.getElem?_cons_succ] at hr
      exact le_trans (Nat.le_succ_of_le h.1) (ih h.2 hr)

theorem wfFrom_end_lt_nextStart {s : Nat} {l : List (InternalRun α)}
    (h : wfFrom s l = true) {j : Nat} {r : InternalRun α}
    (hr : l[j]? = some r) : r.end_ < nextStart s l := by
  induction l generalizing s j with
  | nil => simp at hr
  | cons x xs ih =>
    rw [wfFrom_cons] at h
    rw [nextStart_cons]
    cases j with
    | zero =>
      simp only [List.getElem?_cons_zero, Option.some_inj] at hr
      subst hr
      exact lt_of_lt_of_le (Nat.lt_succ_self _) (le_nextStart h.2)
    | succ j =>
      simp only [List.getElem?_cons_succ] at hr
      exact ih h.2 hr

theorem wfFrom_sorted {s : Nat} {l : List (InternalRun α)} (h : wfFrom s l = true)
    {j k : Nat} {rj rk : InternalRun α} (hjk : j < k)
    (hj : l[j]? = some rj) (hk : l[k]? = some rk) : rj.end_ < rk.end_ := by
  induction l generalizing s j k with
  | nil => simp at hj
  | cons x xs ih =>
    rw [wfFrom_cons] at h
    cases j with
    | zero =>
      simp only [List.getElem?_cons_zero, Option.some_inj] at hj
      subst hj
      cases k with
      | zero => omega
      | succ k =>
        simp only [List.getElem?_cons_succ] at hk
        exact lt_of_lt_of_le (Nat.lt_succ_self _) (wfFrom_le_end h.2 hk)
    | succ j =>
      cases k with
      | zero => omega
      | succ k =>
        simp only [List.getElem?_cons_succ] at hj hk
        exact ih h.2 (by omega) hj hk

/-! ### lowerB lemmas -/

theorem lowerB_cons {t : Nat} {x : InternalRun α} {xs : List (InternalRun α)} :
    lowerB t (x :: xs) = if t ≤ x.end_ then 0 else lowerB t xs + 1 := rfl

theorem lowerB_le_length {t : Nat} {l : List (InternalRun α)} :
    lowerB t l ≤ l.length := by
  induction l with
  | nil => exact le_refl 0
  | cons x xs ih =>
    rw [lowerB_cons]
    by_cases h : t ≤ x.end_ <;> simp [h] <;> omega

theorem end_lt_of_lt_lowerB {t : Nat} {l : List (InternalRun α)} {j : Nat}
    (hj : j < lowerB t l) {r : InternalRun α} (hr : l[j]? = some r) :
    r.end_ < t := by
  induction l generalizing j with
  | nil => simp at hr
  | cons x xs ih =>
    rw [lowerB_cons] at hj
    by_cases hx : t ≤ x.end_
    · rw [if_pos hx] at hj
      omega
    · rw [if_neg hx] at hj
      cases j with
      | zero =>
        rw [List.getElem?_cons_zero, Option.some_inj] at hr
        subst hr
        omega
      | succ j =>
        simp only [List.getElem?_cons_succ] at hr
        exact ih (by omega) hr

theorem le_end_lowerB {t : Nat} {l : List (InternalRun α)}
    (h : lowerB t l < l.length) :
    ∃ r, l[lowerB t l]? = some r ∧ t ≤ r.end_ := by
  induction l with
  | nil => simp at h
  | cons x xs ih =>
    rw [lowerB_cons] at h ⊢
    by_cases hx : t ≤ x.end_
    · rw [if_pos hx] at h ⊢
      exact ⟨x, by simp, hx⟩
    · rw [if_neg hx] at h ⊢
      obtain ⟨r, hr, ht⟩ := ih (by simpa using h)
      exact ⟨r, by simpa using hr, ht⟩

theorem lowerB_le_of {t : Nat} {l : List (InternalRun α)} {m : Nat}
    {r : InternalRun α} (hm : l[m]? = some r) (ht : t ≤ r.end_) :
    lowerB t l ≤ m := by
  induction l generalizing m with
  | nil => simp at hm
  | cons x xs ih =>
    rw [lowerB_cons]
    by_cases hx : t ≤ x.end_
    · simp [hx]
    · rw [if_neg hx]
      cases m with
      | zero =>
        rw [List.getElem?_cons_zero, Option.some_inj] at hm
        subst hm
        exact absurd ht hx
      | succ m =>
        simp only [List.getElem?_cons_succ] at hm
        exact Nat.succ_le_succ (ih hm)

theorem lowerB_eq_length {t : Nat} {l : List (InternalRun α)}
    (h : ∀ (j : Nat) (r : InternalRun α), l[j]? = some r → r.end_ < t) :
    lowerB t l = l.length := by
  induction l with
  | nil => rfl
  | cons x xs ih =>
    rw [lowerB_cons, if_neg (by have := h 0 x (by simp); omega), List.length_cons,
      ih (fun j r hr => h (j + 1) r (by simpa using hr))]

/-! ### Binary search correctness -/

theorem bsearchGo_eq {runs : List (InternalRun α)} {t : Nat}
    (hs : wfFrom 0 runs = true) :
    ∀ fuel left right, right ≤ runs.length → left ≤ right →
      right - left ≤ fuel → left ≤ lowerB t runs → lowerB t runs ≤ right →
      (bsearchGo runs t fuel left right = .ok (lowerB t runs)
          ∧ lowerB t runs < runs.length)
        ∨ bsearchGo runs t fuel left right = .error (lowerB t runs) := by
  intro fuel
  induction fuel with
  | zero =>
    intro left right _ hlr hfuel hl hr
    right
    have hlb : lowerB t runs = left := by omega
    simp [bsearchGo, hlb]
  | succ fuel ih =>
    intro left right hrlen hlr hfuel hl hr
    by_cases hlt : left < right
    · have hmidlt : left + (right - left) / 2 < right := by
        have h2 : (right - left) / 2 < right - left :=
          Nat.div_lt_self (by omega) (by norm_num)
        omega
      set mid := left + (right - left) / 2 with hmid
      have hmidlen : mid < runs.length := lt_of_lt_of_le hmidlt hrlen
      have hrm? : runs[mid]? = some runs[mid] := List.getElem?_eq_getElem hmidlen
      set rm := runs[mid] with hrmdef
      have hstep : bsearchGo runs t (fuel + 1) left right =
          if rm.end_ < t then bsearchGo runs t fuel (mid + 1) right
          else if t < rm.end_ then bsearchGo runs t fuel left mid
          else .ok mid := by
        simp only [bsearchGo, if_pos hlt, ← hmid, hrm?]
      rw [hstep]
      by_cases h1 : rm.end_ < t
      · rw [if_pos h1]
        have hge : mid + 1 ≤ lowerB t runs := by
          by_contra hcon
          push_neg at hcon
          have hlb : lowerB t runs < runs.length := by omega
          obtain ⟨r, hr', ht'⟩ := le_end_lowerB hlb
          rcases Nat.lt_or_ge (lowerB t runs) mid with hc | hc
          · exact absurd (wfFrom_sorted hs hc hr' hrm?) (by omega)
          · have hceq : lowerB t runs = mid := by omega
            rw [hceq, hrm?, Option.some_inj] at hr'
            subst hr'
            omega
        exact ih (mid + 1) right hrlen (by omega) (by omega) hge hr
      · rw [if_neg h1]
        by_cases h2 : t < rm.end_
        · rw [if_pos h2]
          have hle : lowerB t runs ≤ mid := lowerB_le_of hrm? (by omega)
          exact ih left mid (le_of_lt hmidlen) (by omega) (by omega) hl hle
        · rw [if_neg h2]
          left
          have hle : lowerB t runs ≤ mid := lowerB_le_of hrm? (by omega)
          have hge : mid ≤ lowerB t runs := by
            by_contra hcon
            push_neg at hcon
            have hlb2 : lowerB t runs < runs.length := by omega
            obtain ⟨r, hr', ht'⟩ := le_end_lowerB hlb2
            exact absurd (wfFrom_sorted hs hcon hr' hrm?) (by omega)
          have hmeq : mid = lowerB t runs := by omega
          rw [hmeq]
          exact ⟨rfl, by omega⟩
    · right
      have hlb : lowerB t runs = left := by omega
      have hstep : bsearchGo runs t (fuel + 1) left right = .error left := by
        simp only [bsearchGo, if_neg hlt]
      rw [hstep, hlb]

/-! ### run_index and index_info characterization -/

theorem len_eq_nextStart (rle : RleVec α) : rle.len = nextStart 0 rle.runs := by
  cases h : rle.runs.getLast? <;> simp [RleVec.len, nextStart, h]

theorem runs_ne_nil_of_len_pos {rle : RleVec α} (h : 0 < rle.len) :
    rle.runs ≠ [] := by
  intro hnil
  rw [RleVec.len, hnil] at h
  simp at h

theorem lowerB_lt_length_of_lt_len {rle : RleVec α} (hv : rle.Valid) {i : Nat}
    (hi : i < rle.len) : lowerB i rle.runs < rle.runs.length := by
  have hne : rle.runs ≠ [] := runs_ne_nil_of_len_pos (by omega)
  have hlen : 0 < rle.runs.length := List.length_pos.mpr hne
  obtain ⟨rl, hrl⟩ := Option.isSome_iff_exists.mp (List.getLast?_isSome.mpr hne)
  have hrl? : rle.runs[rle.runs.length - 1]? = some rl := by
    rw [← List.getLast?_eq_getElem?]
    exact hrl
  have hlast : rle.len = rl.end_ + 1 := by
    rw [RleVec.len, hrl]
  have hle : i ≤ rl.end_ := by omega
  have h2 : lowerB i rle.runs ≤ rle.runs.length - 1 := lowerB_le_of hrl? hle
  omega

theorem run_index_ok {rle : RleVec α} (hv : rle.Valid) {i : Nat}
    (hi : i < rle.len) :
    rle.run_index i = .ok (lowerB i rle.runs) ∧
      lowerB i rle.runs < rle.runs.length := by
  have hlb := lowerB_lt_length_of_lt_len hv hi
  refine ⟨?_, hlb⟩
  unfold RleVec.run_index
  rcases bsearchGo_eq hv rle.runs.length 0 rle.runs.length (le_refl _)
      (Nat.zero_le _) (by omega) (Nat.zero_le _) lowerB_le_length with h | h
  · rw [h.1]
  · rw [h]
    simp [hlb]

theorem run_index_err {rle : RleVec α} (hv : rle.Valid) {i : Nat}
    (hi : rle.len ≤ i) :
    rle.run_index i = .error (oobMsg rle.len i) := by
  have hall : ∀ (j : Nat) (r : InternalRun α), rle.runs[j]? = some r → r.end_ < i := by
    intro j r hr
    have := wfFrom_end_lt_nextStart hv hr
    rw [← len_eq_nextStart] at this
    omega
  have hlb : lowerB i rle.runs = rle.runs.length := lowerB_eq_length hall
  unfold RleVec.run_index
  rcases bsearchGo_eq hv rle.runs.length 0 rle.runs.length (le_refl _)
      (Nat.zero_le _) (by omega) (Nat.zero_le _) lowerB_le_length with h | h
  · rw [hlb] at h
    exact absurd h.2 (lt_irrefl _)
  · rw [h, hlb]
    simp

/-- The start offset of the run at table position `p` (0 when `p = 0`,
previous end plus one otherwise). -/
def startIdx (runs : List (InternalRun α)) (p : Nat) : Nat :=
  if p = 0 then 0
  else
    match runs[p - 1]? with
    | some r => r.end_ + 1
    | none => 0

theorem index_info_ok {rle : RleVec α} (hv : rle.Valid) {i : Nat}
    (hi : i < rle.len) :
    ∃ rp, rle.runs[lowerB i rle.runs]? = some rp ∧
      rle.index_info i =
        .ok (lowerB i rle.runs, startIdx rle.runs (lowerB i rle.runs), rp.end_) := by
  obtain ⟨hri, hlb⟩ := run_index_ok hv hi
  obtain ⟨rp, hrp⟩ : ∃ rp, rle.runs[lowerB i rle.runs]? = some rp :=
    ⟨_, List.getElem?_eq_getElem hlb⟩
  refine ⟨rp, hrp, ?_⟩
  unfold RleVec.index_info
  rw [hri]
  cases hp : lowerB i rle.runs with
  | zero =>
    rw [hp] at hrp
    rw [hrp]
    simp [startIdx]
  | succ q =>
    rw [hp] at hrp hlb
    have hq : q < rle.runs.length := by omega
    simp only [List.getElem?_eq_getElem hq, hrp]
    simp [startIdx, List.getElem?_eq_getElem hq]

theorem index_info_err {rle : RleVec α} (hv : rle.Valid) {i : Nat}
    (hi : rle.len ≤ i) :
    rle.index_info i = .error (oobMsg rle.len i) := by
  unfold RleVec.index_info
  rw [run_index_err hv hi]

theorem startIdx_le {runs : List (InternalRun α)} {i : Nat}
    (hlb : lowerB i runs < runs.length) : startIdx runs (lowerB i runs) ≤ i := by
  cases hp : lowerB i runs with
  | zero => simp [startIdx]
  | succ q =>
    rw [hp] at hlb
    have hq : q < runs.length := by omega
    have hend : runs[q].end_ < i :=
      end_lt_of_lt_lowerB (by omega) (List.getElem?_eq_getElem hq)
    simp only [startIdx, Nat.add_sub_cancel, List.getElem?_eq_getElem hq]
    simp
    omega

/-! ### Expansion lemmas -/

theorem expandFrom_cons {s : Nat} {r : InternalRun α} {rest : List (InternalRun α)} :
    expandFrom s (r :: rest) =
      List.replicate (r.end_ + 1 - s) r.value ++ expandFrom (r.end_ + 1) rest := rfl

theorem expandFrom_append {s : Nat} (xs ys : List (InternalRun α)) :
    expandFrom s (xs ++ ys) = expandFrom s xs ++ expandFrom (nextStart s xs) ys := by
  induction xs generalizing s with
  | nil => simp [expandFrom, nextStart_nil]
  | cons x xs ih =>
    rw [List.cons_append, expandFrom_cons, expandFrom_cons, ih, nextStart_cons,
      List.append_assoc]

theorem expandFrom_length {s : Nat} {l : List (InternalRun α)}
    (h : wfFrom s l = true) : (expandFrom s l).length = nextStart s l - s := by
  induction l generalizing s with
  | nil => simp [expandFrom, nextStart_nil]
  | cons r rest ih =>
    rw [wfFrom_cons] at h
    have h2 := le_nextStart h.2
    rw [expandFrom_cons, nextStart_cons, List.length_append, List.length_replicate,
      ih h.2]
    omega

theorem expand_length {rle : RleVec α} (hv : rle.Valid) :
    rle.expand.length = rle.len := by
  rw [RleVec.expand, expandFrom_length hv, len_eq_nextStart]
  omega

theorem lowerB_eq_of {t : Nat} {l : List (InternalRun α)} {m : Nat}
    {rm : InternalRun α} (hm : l[m]? = some rm) (ht : t ≤ rm.end_)
    (h1 : ∀ (j : Nat) (rj : InternalRun α), j < m → l[j]? = some rj → rj.end_ < t) :
    lowerB t l = m := by
  have hle : lowerB t l ≤ m := lowerB_le_of hm ht
  rcases Nat.lt_or_ge (lowerB t l) m with hc | hc
  · have hmlen : m < l.length := (List.getElem?_eq_some.mp hm).1
    have hlb2 : lowerB t l < l.length := by omega
    obtain ⟨r, hr, ht2⟩ := le_end_lowerB hlb2
    exact absurd (h1 _ _ hc hr) (by omega)
  · omega

theorem expandFrom_getElem {s i : Nat} {l : List (InternalRun α)}
    (hw : wfFrom s l = true) (hsi : s ≤ i) (hlb : lowerB i l < l.length) :
    ∃ r, l[lowerB i l]? = some r ∧ (expandFrom s l)[i - s]? = some r.value := by
  induction l generalizing s with
  | nil => simp at hlb
  | cons x xs ih =>
    rw [wfFrom_cons] at hw
    rw [lowerB_cons] at hlb ⊢
    by_cases hx : i ≤ x.end_
    · rw [if_pos hx] at hlb ⊢
      refine ⟨x, by simp, ?_⟩
      rw [expandFrom_cons, List.getElem?_append, List.length_replicate,
        if_pos (by omega), List.getElem?_replicate, if_pos (by omega)]
    · rw [if_neg hx] at hlb ⊢
      simp only [List.length_cons] at hlb
      have hs2 : x.end_ + 1 ≤ i := by omega
      obtain ⟨r, hr, he⟩ := ih hw.2 hs2 (by omega)
      refine ⟨r, by simpa using hr, ?_⟩
      rw [expandFrom_cons,
        List.getElem?_append_right (by rw [List.length_replicate]; omega),
        List.length_replicate]
      have harith : i - s - (x.end_ + 1 - s) = i - (x.end_ + 1) := by omega
      rw [harith]
      exact he

theorem expand_getElem {rle : RleVec α} (hv : rle.Valid) {i : Nat}
    (hi : i < rle.len) :
    ∃ r, rle.runs[lowerB i rle.runs]? = some r ∧ rle.expand[i]? = some r.value := by
  have hlb := lowerB_lt_length_of_lt_len hv hi
  obtain ⟨r, hr, he⟩ := expandFrom_getElem hv (Nat.zero_le i) hlb
  exact ⟨r, hr, by simpa using he⟩

theorem drop_cons_of_getElem {β : Type} {l : List β} {i : Nat} {a : β}
    (h : l[i]? = some a) : l.drop i = a :: l.drop (i + 1) := by
  obtain ⟨hlt, hb⟩ := List.getElem?_eq_some.mp h
  rw [List.drop_eq_getElem_cons hlt, hb]

/-! ### The value iterator produces the expansion -/

theorem iterCollect_eq_drop {rle : RleVec α} (hv : rle.Valid) :
    ∀ fuel i p, i + fuel = rle.len → (i < rle.len → p = lowerB i rle.runs) →
      rle.iterCollect fuel p i = rle.expand.drop i := by
  intro fuel
  induction fuel with
  | zero =>
    intro i p hf _hp
    have : rle.expand.length ≤ i := by rw [expand_length hv]; omega
    rw [RleVec.iterCollect, List.drop_eq_nil_of_le this]
  | succ fuel ih =>
    intro i p hf hp
    have hi : i < rle.len := by omega
    have hp2 := hp hi
    subst hp2
    obtain ⟨r, hr, he⟩ := expand_getElem hv hi
    have hlb := lowerB_lt_length_of_lt_len hv hi
    obtain ⟨r2, hr2, hir⟩ := le_end_lowerB hlb
    rw [hr, Option.some_inj] at hr2
    subst hr2
    have hne : ¬(rle.is_empty = true ∨ i = rle.len) := by
      rintro (hemp | hieq)
      · rw [RleVec.is_empty, List.isEmpty_iff] at hemp
        exact runs_ne_nil_of_len_pos (by omega) hemp
      · omega
    have hnext : rle.iterNext (lowerB i rle.runs) i =
        if r.end_ < i + 1 then some (r.value, lowerB i rle.runs + 1, i + 1)
        else some (r.value, lowerB i rle.runs, i + 1) := by
      rw [RleVec.iterNext, if_neg hne, hr]
    rw [RleVec.iterCollect, hnext, drop_cons_of_getElem he]
    by_cases hadv : r.end_ < i + 1
    · rw [if_pos hadv]
      have hre : r.end_ = i := by omega
      refine congrArg (r.value :: ·) (ih (i + 1) _ (by omega) ?_)
      intro hi1
      symm
      have hlb1 : lowerB i rle.runs + 1 < rle.runs.length := by
        by_contra hcon
        push_neg at hcon
        have hlast : rle.runs[rle.runs.length - 1]? = some r := by
          have : rle.runs.length - 1 = lowerB i rle.runs := by omega
          rw [this]
          exact hr
        have : rle.len = r.end_ + 1 := by
          rw [RleVec.len, List.getLast?_eq_getElem?, hlast]
        omega
      obtain ⟨rn, hrn⟩ : ∃ rn, rle.runs[lowerB i rle.runs + 1]? = some rn :=
        ⟨_, List.getElem?_eq_getElem hlb1⟩
      refine lowerB_eq_of hrn ?_ ?_
      · have := wfFrom_sorted hv (Nat.lt_succ_self _) hr hrn
        omega
      · intro j rj hj hrj
        rcases Nat.lt_or_ge j (lowerB i rle.runs) with hc | hc
        · have := end_lt_of_lt_lowerB hc hrj
          omega
        · have hje : j = lowerB i rle.runs := by omega
          rw [hje, hr, Option.some_inj] at hrj
          subst hrj
          omega
    · rw [if_neg hadv]
      refine congrArg (r.value :: ·) (ih (i + 1) _ (by omega) ?_)
      intro _
      symm
      refine lowerB_eq_of hr (by omega) ?_
      intro j rj hj hrj
      have := end_lt_of_lt_lowerB hj hrj
      omega

/-- The source to_vec (iterator driven to exhaustion) equals the
mathematical expansion of the run list. -/
theorem to_vec_eq_expand {rle : RleVec α} (hv : rle.Valid) :
    rle.to_vec = rle.expand := by
  rw [RleVec.to_vec]
  have h := iterCollect_eq_drop hv rle.len 0 0 (by omega) ?_
  · rw [h, List.drop_zero]
  · intro h0
    have hne : rle.runs ≠ [] := runs_ne_nil_of_len_pos h0
    cases hruns : rle.runs with
    | nil => exact absurd hruns hne
    | cons x xs => simp [lowerB_cons]

/-! ### Index access characterization -/

theorem index_ok {rle : RleVec α} (hv : rle.Valid) {i : Nat} (hi : i < rle.len) :
    ∃ r, rle.runs[lowerB i rle.runs]? = some r ∧ rle.index i = .ok r.value := by
  obtain ⟨hri, hlb⟩ := run_index_ok hv hi
  obtain ⟨rp, hrp⟩ : ∃ rp, rle.runs[lowerB i rle.runs]? = some rp :=
    ⟨_, List.getElem?_eq_getElem hlb⟩
  refine ⟨rp, hrp, ?_⟩
  unfold RleVec.index
  rw [hri]
  simp only [hrp]

theorem wfFrom_singleton {s : Nat} {r : InternalRun α} :
    wfFrom s [r] = true ↔ s ≤ r.end_ := by
  simp [wfFrom]

theorem nextStart_of_getLast {s : Nat} {l : List (InternalRun α)}
    {r : InternalRun α} (h : l.getLast? = some r) : nextStart s l = r.end_ + 1 := by
  simp [nextStart, h]

theorem expandFrom_singleton {s : Nat} {r : InternalRun α} :
    expandFrom s [r] = List.replicate (r.end_ + 1 - s) r.value := by
  simp [expandFrom]

theorem expandFrom_pair {s e : Nat} {v : α} :
    expandFrom s [⟨e, v⟩] = List.replicate (e + 1 - s) v := by
  simp [expandFrom]

theorem valid_push_n {rle : RleVec α} (hv : rle.Valid) (n : Nat) (v : α) :
    (rle.push_n n v).Valid := by
  by_cases hn : n = 0
  · have hgoal : rle.push_n n v = rle := by simp [RleVec.push_n, hn]
    rw [hgoal]
    exact hv
  cases hlast : rle.runs.getLast? with
  | none =>
    have hgoal : rle.push_n n v = ⟨[⟨n - 1, v⟩]⟩ := by
      simp [RleVec.push_n, hn, hlast]
    rw [hgoal]
    show wfFrom 0 [⟨n - 1, v⟩] = true
    rw [wfFrom_singleton]
    exact Nat.zero_le _
  | some last =>
    have hruns := List.dropLast_append_getLast? last hlast
    by_cases hval : last.value = v
    · have hgoal : rle.push_n n v = ⟨rle.runs.dropLast ++ [⟨last.end_ + n, last.value⟩]⟩ := by
        simp [RleVec.push_n, hn, hlast, hval]
      rw [hgoal]
      show wfFrom 0 (rle.runs.dropLast ++ [⟨last.end_ + n, last.value⟩]) = true
      have hv2 : wfFrom 0 (rle.runs.dropLast ++ [last]) = true := by
        rw [hruns]
        exact hv
      rw [wfFrom_append] at hv2 ⊢
      rw [wfFrom_singleton] at hv2 ⊢
      exact ⟨hv2.1, by have := hv2.2; simp; omega⟩
    · have hgoal : rle.push_n n v = ⟨rle.runs ++ [⟨last.end_ + n, v⟩]⟩ := by
        simp [RleVec.push_n, hn, hlast, hval]
      rw [hgoal]
      show wfFrom 0 (rle.runs ++ [⟨last.end_ + n, v⟩]) = true
      rw [wfFrom_append, wfFrom_singleton, nextStart_of_getLast hlast]
      exact ⟨hv, by simp; omega⟩

theorem expand_push_n {rle : RleVec α} (hv : rle.Valid) (n : Nat) (v : α) :
    (rle.push_n n v).expand = rle.expand ++ List.replicate n v := by
  by_cases hn : n = 0
  · have hgoal : rle.push_n n v = rle := by simp [RleVec.push_n, hn]
    rw [hgoal, hn]
    simp
  cases hlast : rle.runs.getLast? with
  | none =>
    have hnil : rle.runs = [] := List.getLast?_eq_none_iff.mp hlast
    have hgoal : rle.push_n n v = ⟨[⟨n - 1, v⟩]⟩ := by
      simp [RleVec.push_n, hn, hlast]
    rw [hgoal]
    show expandFrom 0 [⟨n - 1, v⟩] = rle.expand ++ List.replicate n v
    rw [RleVec.expand, hnil, expandFrom_pair]
    have harith : n - 1 + 1 - 0 = n := by omega
    rw [harith]
    simp [expandFrom]
  | some last =>
    have hruns := List.dropLast_append_getLast? last hlast
    have hv2 : wfFrom 0 (rle.runs.dropLast ++ [last]) = true := by
      rw [hruns]
      exact hv
    rw [wfFrom_append, wfFrom_singleton] at hv2
    by_cases hval : last.value = v
    · have hgoal : rle.push_n n v = ⟨rle.runs.dropLast ++ [⟨last.end_ + n, last.value⟩]⟩ := by
        simp [RleVec.push_n, hn, hlast, hval]
      rw [hgoal]
      show expandFrom 0 (rle.runs.dropLast ++ [⟨last.end_ + n, last.value⟩]) =
        rle.expand ++ List.replicate n v
      rw [RleVec.expand]
      conv_rhs => rw [← hruns]
      rw [expandFrom_append, expandFrom_append, expandFrom_pair,
        expandFrom_singleton, List.append_assoc, hval, ← List.replicate_add]
      have harith : last.end_ + n + 1 - nextStart 0 rle.runs.dropLast =
          last.end_ + 1 - nextStart 0 rle.runs.dropLast + n := by
        have := hv2.2
        omega
      rw [harith]
    · have hgoal : rle.push_n n v = ⟨rle.runs ++ [⟨last.end_ + n, v⟩]⟩ := by
        simp [RleVec.push_n, hn, hlast, hval]
      rw [hgoal]
      show expandFrom 0 (rle.runs ++ [⟨last.end_ + n, v⟩]) =
        rle.expand ++ List.replicate n v
      rw [RleVec.expand, expandFrom_append, expandFrom_pair,
        nextStart_of_getLast hlast]
      have harith : last.end_ + n + 1 - (last.end_ + 1) = n := by omega
      rw [harith]

theorem valid_push {rle : RleVec α} (hv : rle.Valid) (v : α) :
    (rle.push v).Valid :=
  valid_push_n hv 1 v

theorem expand_push {rle : RleVec α} (hv : rle.Valid) (v : α) :
    (rle.push v).expand = rle.expand ++ [v] := by
  rw [RleVec.push, expand_push_n hv]
  simp

theorem new_valid : (RleVec.new : RleVec α).Valid := rfl

theorem valid_from_iter_aux (l : List α) (acc : RleVec α) (hv : acc.Valid) :
    (l.foldl (fun rle v => rle.push v) acc).Valid ∧
      (l.foldl (fun rle v => rle.push v) acc).expand = acc.expand ++ l := by
  induction l generalizing acc with
  | nil => exact ⟨hv, by simp⟩
  | cons x xs ih =>
    obtain ⟨h1, h2⟩ := ih (acc.push x) (valid_push hv x)
    exact ⟨h1, by rw [List.foldl_cons, h2, expand_push hv, List.append_assoc]; rfl⟩

theorem valid_from_iter (l : List α) : (RleVec.from_iter l).Valid :=
  (valid_from_iter_aux l RleVec.new new_valid).1

theorem expand_from_iter (l : List α) : (RleVec.from_iter l).expand = l := by
  have := (valid_from_iter_aux l RleVec.new new_valid).2
  simpa [RleVec.expand, RleVec.new, expandFrom] using this

/-! ### Surgery context at an in-bounds logical index -/

theorem getAt_append {β : Type} (A C : List β) : (A ++ C)[A.length]? = C[0]? := by
  rw [List.getElem?_append_right (le_refl _), Nat.sub_self]

theorem startIdx_eq_nextStart {A B : List (InternalRun α)} {rp : InternalRun α} :
    startIdx (A ++ rp :: B) A.length = nextStart 0 A := by
  cases hA : A with
  | nil => simp [startIdx, nextStart_nil]
  | cons a A2 =>
    rw [startIdx, if_neg (by simp), getLast_mid (by simp) (rp :: B)]
    cases hL : (a :: A2).getLast? with
    | none => simp [List.getLast?_eq_none_iff] at hL
    | some ra => simp [nextStart, hL]

theorem wfFrom_map_dec {s : Nat} {l : List (InternalRun α)}
    (h : wfFrom s l = true) (hs : 1 ≤ s) :
    wfFrom (s - 1) (l.map fun r => (⟨r.end_ - 1, r.value⟩ : InternalRun α)) = true := by
  induction l generalizing s with
  | nil => rfl
  | cons b rest ih =>
    rw [wfFrom_cons] at h
    rw [List.map_cons, wfFrom_cons]
    refine ⟨by simp; omega, ?_⟩
    have := ih h.2 (by omega)
    have harith : b.end_ + 1 - 1 = b.end_ - 1 + 1 := by omega
    rw [harith] at this
    exact this

theorem wfFrom_map_inc {s : Nat} {l : List (InternalRun α)}
    (h : wfFrom s l = true) :
    wfFrom (s + 1) (l.map fun r => (⟨r.end_ + 1, r.value⟩ : InternalRun α)) = true := by
  induction l generalizing s with
  | nil => rfl
  | cons b rest ih =>
    rw [wfFrom_cons] at h
    rw [List.map_cons, wfFrom_cons]
    exact ⟨by simp; omega, ih h.2⟩

theorem index_ctx {rle : RleVec α} (hv : rle.Valid) {i : Nat} (hi : i < rle.len) :
    ∃ (p : Nat) (A : List (InternalRun α)) (rp : InternalRun α)
      (B : List (InternalRun α)),
      rle.index_info i = .ok (p, nextStart 0 A, rp.end_) ∧
      rle.runs = A ++ rp :: B ∧ A.length = p ∧
      wfFrom 0 A = true ∧ nextStart 0 A ≤ i ∧ i ≤ rp.end_ ∧
      wfFrom (rp.end_ + 1) B = true := by
  obtain ⟨rp, hrp, hinfo⟩ := index_info_ok hv hi
  obtain ⟨hdec, hlen⟩ := decompose_at hrp
  obtain ⟨rq, hrq, hile⟩ := le_end_lowerB (lowerB_lt_length_of_lt_len hv hi)
  rw [hrp, Option.some_inj] at hrq
  subst hrq
  generalize hA : rle.runs.take (lowerB i rle.runs) = A at hdec hlen
  generalize hB : rle.runs.drop (lowerB i rle.runs + 1) = B at hdec
  have hstart : startIdx rle.runs (lowerB i rle.runs) = nextStart 0 A := by
    rw [← hlen, hdec]
    exact startIdx_eq_nextStart
  have hwf : wfFrom 0 (A ++ rp :: B) = true := by
    rw [← hdec]
    exact hv
  rw [wfFrom_append, wfFrom_cons] at hwf
  refine ⟨lowerB i rle.runs, A, rp, B, ?_, hdec, hlen, hwf.1, ?_, hile,
    hwf.2.2⟩
  · rw [hinfo, hstart]
  · rw [← hstart]
    exact startIdx_le (lowerB_lt_length_of_lt_len hv hi)

/-! ### remove preserves the strict-monotonicity invariant -/

theorem valid_remove {rle : RleVec α} (hv : rle.Valid) {i : Nat}
    {pr : α × RleVec α} (h : rle.remove i = .ok pr) : pr.2.Valid := by
  rcases Nat.lt_or_ge i rle.len with hi | hi
  case inr =>
    rw [RleVec.remove, index_info_err hv hi] at h
    simp at h
  obtain ⟨p, A, rp, B, hinfo, hruns, hA, wfA, hsi, hie, wfB⟩ := index_ctx hv hi
  unfold RleVec.remove at h
  rw [hinfo] at h
  have htake : rle.runs.take p = A := by
    rw [hruns, ← hA, List.take_left]
  have hdrop : rle.runs.drop p = rp :: B := by
    rw [hruns, ← hA, List.drop_left]
  simp only [htake, hdrop, List.map_cons] at h
  by_cases hsz : rp.end_ - nextStart 0 A = 0
  · rw [if_pos hsz, ← hA, getAt_mid] at h
    simp only [erase_mid] at h
    by_cases hc : 0 < A.length ∧
        2 < (A ++ List.map (fun r => (⟨r.end_ - 1, r.value⟩ : InternalRun α)) B).length
    · obtain ⟨hp0, hlen2⟩ := hc
      have hAne : A ≠ [] := by
        intro hAnil
        rw [hAnil] at hp0
        simp at hp0
      obtain ⟨ra, hra⟩ : ∃ ra, A.getLast? = some ra :=
        Option.isSome_iff_exists.mp (List.getLast?_isSome.mpr hAne)
      have hpred : (A ++ List.map (fun r => (⟨r.end_ - 1, r.value⟩ : InternalRun α)) B)[A.length - 1]?
          = some ra := by
        rw [getLast_mid hAne]
        exact hra
      rw [if_pos ⟨hp0, hlen2⟩] at h
      simp only [hpred] at h
      cases B with
      | nil => simp [getAt_append] at h
      | cons b0 B2 =>
        simp only [List.map_cons] at h
        have hafter : (A ++ (⟨b0.end_ - 1, b0.value⟩ : InternalRun α)
            :: List.map (fun r => (⟨r.end_ - 1, r.value⟩ : InternalRun α)) B2)[A.length]?
            = some ⟨b0.end_ - 1, b0.value⟩ := getAt_mid _ _ _
        simp only [hafter] at h
        have hA2 := List.dropLast_append_getLast? ra hra
        have hA2len : A.dropLast.length = A.length - 1 := by
          rw [List.length_dropLast]
        have wfA2 : wfFrom 0 (A.dropLast ++ [ra]) = true := by
          rw [hA2]
          exact wfA
        rw [wfFrom_append, wfFrom_singleton] at wfA2
        have hnsa : nextStart 0 A = ra.end_ + 1 := nextStart_of_getLast hra
        rw [wfFrom_cons] at wfB
        by_cases hmv : ra.value = b0.value
        · rw [if_pos hmv] at h
          -- the merged result: set (A.length - 1) then erase A.length
          have hsplit : A ++ (⟨b0.end_ - 1, b0.value⟩ : InternalRun α)
              :: List.map (fun r => (⟨r.end_ - 1, r.value⟩ : InternalRun α)) B2 =
              A.dropLast ++ ra :: ((⟨b0.end_ - 1, b0.value⟩ : InternalRun α)
                :: List.map (fun r => (⟨r.end_ - 1, r.value⟩ : InternalRun α)) B2) := by
            conv_lhs => rw [← hA2]
            rw [List.append_assoc, List.singleton_append]
          rw [hsplit, ← hA2len, set_mid] at h
          have hsplit2 : A.dropLast ++ (⟨b0.end_ - 1, ra.value⟩ : InternalRun α)
              :: (⟨b0.end_ - 1, b0.value⟩ : InternalRun α)
                :: List.map (fun r => (⟨r.end_ - 1, r.value⟩ : InternalRun α)) B2 =
              (A.dropLast ++ [⟨b0.end_ - 1, ra.value⟩])
                ++ (⟨b0.end_ - 1, b0.value⟩ : InternalRun α)
                  :: List.map (fun r => (⟨r.end_ - 1, r.value⟩ : InternalRun α)) B2 := by
            rw [List.append_assoc, List.singleton_append]
          have hlenA : (A.dropLast ++ [(⟨b0.end_ - 1, ra.value⟩ : InternalRun α)]).length
              = A.length := by
            rw [List.length_append, hA2len, List.length_singleton]
            omega
          rw [hsplit2, ← hlenA, erase_mid] at h
          cases h
          show wfFrom 0 ((A.dropLast ++ [⟨b0.end_ - 1, ra.value⟩])
            ++ List.map (fun r => (⟨r.end_ - 1, r.value⟩ : InternalRun α)) B2) = true
          rw [wfFrom_append, wfFrom_append, wfFrom_singleton, nextStart_concat]
          refine ⟨⟨wfA2.1, show nextStart 0 A.dropLast ≤ b0.end_ - 1 by omega⟩, ?_⟩
          show wfFrom (b0.end_ - 1 + 1) _ = true
          have harith : b0.end_ - 1 + 1 = b0.end_ + 1 - 1 := by omega
          rw [harith]
          exact wfFrom_map_dec wfB.2 (by omega)
        · rw [if_neg hmv] at h
          cases h
          show wfFrom 0 (A ++ (⟨b0.end_ - 1, b0.value⟩ : InternalRun α)
            :: List.map (fun r => (⟨r.end_ - 1, r.value⟩ : InternalRun α)) B2) = true
          rw [wfFrom_append, wfFrom_cons]
          refine ⟨wfA, show nextStart 0 A ≤ b0.end_ - 1 by omega, ?_⟩
          show wfFrom (b0.end_ - 1 + 1) _ = true
          have harith : b0.end_ - 1 + 1 = b0.end_ + 1 - 1 := by omega
          rw [harith]
          exact wfFrom_map_dec wfB.2 (by omega)
    · rw [if_neg hc] at h
      cases h
      show wfFrom 0 (A ++ List.map (fun r => (⟨r.end_ - 1, r.value⟩ : InternalRun α)) B) = true
      rw [wfFrom_append]
      refine ⟨wfA, ?_⟩
      have hd := wfFrom_map_dec wfB (by omega)
      have harith : rp.end_ + 1 - 1 = rp.end_ := by omega
      rw [harith] at hd
      exact wfFrom_mono hd (show nextStart 0 A ≤ rp.end_ by omega)
  · rw [if_neg hsz, ← hA, getAt_mid] at h
    simp only at h
    cases h
    show wfFrom 0 (A ++ (⟨rp.end_ - 1, rp.value⟩ : InternalRun α)
      :: List.map (fun r => (⟨r.end_ - 1, r.value⟩ : InternalRun α)) B) = true
    rw [wfFrom_append, wfFrom_cons]
    refine ⟨wfA, show nextStart 0 A ≤ rp.end_ - 1 by omega, ?_⟩
    show wfFrom (rp.end_ - 1 + 1) _ = true
    have harith : rp.end_ - 1 + 1 = rp.end_ + 1 - 1 := by omega
    rw [harith]
    exact wfFrom_map_dec wfB (by omega)

/-! ### insert preserves the strict-monotonicity invariant -/

theorem valid_insert {rle rle2 : RleVec α} (hv : rle.Valid) {i : Nat} {v : α}
    (h : rle.insert i v = .ok rle2) : rle2.Valid := by
  by_cases hieq : i = rle.len
  · unfold RleVec.insert at h
    rw [if_pos hieq] at h
    cases h
    exact valid_push hv v
  rcases Nat.lt_or_ge i rle.len with hi | hi
  swap
  · unfold RleVec.insert at h
    rw [if_neg hieq, index_info_err hv hi] at h
    simp at h
  obtain ⟨p, A, rp, B, hinfo, hruns, hA, wfA, hsi, hie, wfB⟩ := index_ctx hv hi
  unfold RleVec.insert at h
  rw [if_neg hieq, hinfo] at h
  have htake : rle.runs.take p = A := by
    rw [hruns, ← hA, List.take_left]
  have hdrop : rle.runs.drop p = rp :: B := by
    rw [hruns, ← hA, List.drop_left]
  simp only [htake, hdrop, List.map_cons] at h
  rw [← hA, getAt_mid] at h
  simp only [List.map_cons] at h
  by_cases hval : rp.value = v
  · rw [if_pos hval] at h
    cases h
    show wfFrom 0 (A ++ (⟨rp.end_ + 1, rp.value⟩ : InternalRun α)
      :: List.map (fun r => (⟨r.end_ + 1, r.value⟩ : InternalRun α)) B) = true
    rw [wfFrom_append, wfFrom_cons]
    exact ⟨wfA, show nextStart 0 A ≤ rp.end_ + 1 by omega,
      wfFrom_map_inc wfB⟩
  rw [if_neg hval] at h
  by_cases hst : i = nextStart 0 A
  · rw [if_pos hst] at h
    by_cases hp0 : 0 < A.length
    · rw [if_pos hp0] at h
      have hAne : A ≠ [] := by
        intro hAnil
        rw [hAnil] at hp0
        simp at hp0
      obtain ⟨ra, hra⟩ : ∃ ra, A.getLast? = some ra :=
        Option.isSome_iff_exists.mp (List.getLast?_isSome.mpr hAne)
      have hpred : (A ++ (⟨rp.end_ + 1, rp.value⟩ : InternalRun α)
          :: List.map (fun r => (⟨r.end_ + 1, r.value⟩ : InternalRun α)) B)[A.length - 1]?
          = some ra := by
        rw [getLast_mid hAne]
        exact hra
      simp only [hpred] at h
      have hnsa : nextStart 0 A = ra.end_ + 1 := nextStart_of_getLast hra
      have hA2 := List.dropLast_append_getLast? ra hra
      have hA2len : A.dropLast.length = A.length - 1 := by
        rw [List.length_dropLast]
      have wfA2 : wfFrom 0 (A.dropLast ++ [ra]) = true := by
        rw [hA2]
        exact wfA
      rw [wfFrom_append, wfFrom_singleton] at wfA2
      by_cases hmv : ra.value = v
      · rw [if_pos hmv] at h
        have hsplit : A ++ (⟨rp.end_ + 1, rp.value⟩ : InternalRun α)
            :: List.map (fun r => (⟨r.end_ + 1, r.value⟩ : InternalRun α)) B =
            A.dropLast ++ ra :: ((⟨rp.end_ + 1, rp.value⟩ : InternalRun α)
              :: List.map (fun r => (⟨r.end_ + 1, r.value⟩ : InternalRun α)) B) := by
          conv_lhs => rw [← hA2]
          rw [List.append_assoc, List.singleton_append]
        rw [hsplit, ← hA2len, set_mid] at h
        cases h
        show wfFrom 0 (A.dropLast ++ (⟨ra.end_ + 1, ra.value⟩ : InternalRun α)
          :: (⟨rp.end_ + 1, rp.value⟩ : InternalRun α)
          :: List.map (fun r => (⟨r.end_ + 1, r.value⟩ : InternalRun α)) B) = true
        rw [wfFrom_append, wfFrom_cons, wfFrom_cons]
        exact ⟨wfA2.1, show nextStart 0 A.dropLast ≤ ra.end_ + 1 by omega,
          show ra.end_ + 1 + 1 ≤ rp.end_ + 1 by omega, wfFrom_map_inc wfB⟩
      · rw [if_neg hmv] at h
        rw [insert_mid] at h
        cases h
        show wfFrom 0 (A ++ (⟨i, v⟩ : InternalRun α)
          :: (⟨rp.end_ + 1, rp.value⟩ : InternalRun α)
          :: List.map (fun r => (⟨r.end_ + 1, r.value⟩ : InternalRun α)) B) = true
        rw [wfFrom_append, wfFrom_cons, wfFrom_cons]
        exact ⟨wfA, show nextStart 0 A ≤ i by omega,
          show i + 1 ≤ rp.end_ + 1 by omega, wfFrom_map_inc wfB⟩
    · rw [if_neg hp0] at h
      rw [insert_mid] at h
      cases h
      show wfFrom 0 (A ++ (⟨i, v⟩ : InternalRun α)
        :: (⟨rp.end_ + 1, rp.value⟩ : InternalRun α)
        :: List.map (fun r => (⟨r.end_ + 1, r.value⟩ : InternalRun α)) B) = true
      rw [wfFrom_append, wfFrom_cons, wfFrom_cons]
      exact ⟨wfA, show nextStart 0 A ≤ i by omega,
        show i + 1 ≤ rp.end_ + 1 by omega, wfFrom_map_inc wfB⟩
  · rw [if_neg hst] at h
    rw [set_mid] at h
    have hsplit2 : A ++ (⟨i - 1, rp.value⟩ : InternalRun α)
        :: List.map (fun r => (⟨r.end_ + 1, r.value⟩ : InternalRun α)) B =
        (A ++ [⟨i - 1, rp.value⟩])
          ++ List.map (fun r => (⟨r.end_ + 1, r.value⟩ : InternalRun α)) B := by
      rw [List.append_assoc, List.singleton_append]
    have hlen1 : (A ++ [(⟨i - 1, rp.value⟩ : InternalRun α)]).length = A.length + 1 := by
      simp
    rw [hsplit2, ← hlen1, insert_mid] at h
    have hsplit3 : (A ++ [(⟨i - 1, rp.value⟩ : InternalRun α)])
        ++ (⟨i, v⟩ : InternalRun α)
          :: List.map (fun r => (⟨r.end_ + 1, r.value⟩ : InternalRun α)) B =
        (A ++ [⟨i - 1, rp.value⟩, ⟨i, v⟩])
          ++ List.map (fun r => (⟨r.end_ + 1, r.value⟩ : InternalRun α)) B := by
      simp
    have hlen2 : (A ++ [(⟨i - 1, rp.value⟩ : InternalRun α), ⟨i, v⟩]).length
        = A.length + 1 + 1 := by
      simp
    rw [hsplit3, ← hlen2, insert_mid] at h
    cases h
    show wfFrom 0 ((A ++ [(⟨i - 1, rp.value⟩ : InternalRun α), ⟨i, v⟩])
      ++ (⟨rp.end_ + 1, rp.value⟩ : InternalRun α)
      :: List.map (fun r => (⟨r.end_ + 1, r.value⟩ : InternalRun α)) B) = true
    have hi1 : 1 ≤ i := by omega
    rw [wfFrom_append, wfFrom_cons]
    constructor
    · have : A ++ [(⟨i - 1, rp.value⟩ : InternalRun α), ⟨i, v⟩] =
          A ++ (⟨i - 1, rp.value⟩ : InternalRun α) :: [(⟨i, v⟩ : InternalRun α)] := rfl
      rw [this, wfFrom_append, wfFrom_cons, wfFrom_singleton]
      exact ⟨wfA, show nextStart 0 A ≤ i - 1 by omega,
        show i - 1 + 1 ≤ i by omega⟩
    · have hns2 : nextStart 0 (A ++ [(⟨i - 1, rp.value⟩ : InternalRun α), ⟨i, v⟩])
          = i + 1 := by
        have : A ++ [(⟨i - 1, rp.value⟩ : InternalRun α), ⟨i, v⟩] =
            (A ++ [⟨i - 1, rp.value⟩]) ++ [(⟨i, v⟩ : InternalRun α)] := by
          simp
        rw [this, nextStart_concat]
      rw [hns2]
      exact ⟨show i + 1 ≤ rp.end_ + 1 by omega, wfFrom_map_inc wfB⟩

/-! ### set preserves the strict-monotonicity invariant -/

theorem getAt_mid_succ {β : Type} (A : List β) (b : β) (B : List β) :
    (A ++ b :: B)[A.length + 1]? = B[0]? := by
  induction A with
  | nil => simp
  | cons a A ih => simpa using ih

theorem valid_set {rle rle2 : RleVec α} (hv : rle.Valid) {i : Nat} {v : α}
    (h : rle.set i v = .ok rle2) : rle2.Valid := by
  rcases Nat.lt_or_ge i rle.len with hi | hi
  swap
  · rw [RleVec.set, index_info_err hv hi] at h
    simp at h
  obtain ⟨p, A, rp, B, hinfo, hruns, hA, wfA, hsi, hie, wfB⟩ := index_ctx hv hi
  unfold RleVec.set at h
  rw [hinfo] at h
  have hgetp : rle.runs[p]? = some rp := by
    rw [hruns, ← hA]
    exact getAt_mid _ _ _
  simp only [hgetp] at h
  by_cases hval : rp.value = v
  · rw [if_pos hval] at h
    cases h
    exact hv
  rw [if_neg hval, hruns, ← hA] at h
  by_cases hsz : rp.end_ - nextStart 0 A = 0
  · rw [if_pos hsz] at h
    by_cases hp0 : 0 < A.length
    · rw [if_pos hp0] at h
      have hAne : A ≠ [] := by
        intro hAnil
        rw [hAnil] at hp0
        simp at hp0
      obtain ⟨ra, hra⟩ : ∃ ra, A.getLast? = some ra :=
        Option.isSome_iff_exists.mp (List.getLast?_isSome.mpr hAne)
      have hpred : (A ++ rp :: B)[A.length - 1]? = some ra := by
        rw [getLast_mid hAne]
        exact hra
      simp only [hpred] at h
      have hnsa : nextStart 0 A = ra.end_ + 1 := nextStart_of_getLast hra
      have hA2 := List.dropLast_append_getLast? ra hra
      have hA2len : A.dropLast.length = A.length - 1 := by
        rw [List.length_dropLast]
      have wfA2 : wfFrom 0 (A.dropLast ++ [ra]) = true := by
        rw [hA2]
        exact wfA
      rw [wfFrom_append, wfFrom_singleton] at wfA2
      by_cases hmv : ra.value = v
      · rw [if_pos hmv] at h
        simp only [erase_mid] at h
        have hsplit : A ++ B = A.dropLast ++ ra :: B := by
          conv_lhs => rw [← hA2]
          rw [List.append_assoc, List.singleton_append]
        rw [hsplit, ← hA2len, set_mid] at h
        -- the state now holds A.dropLast ++ newra :: B at position A.dropLast.length
        rw [getAt_mid_succ] at h
        by_cases hcnd : A.dropLast.length <
            (A.dropLast ++ (⟨ra.end_ + 1, ra.value⟩ : InternalRun α) :: B).length - 1
        · rw [if_pos hcnd] at h
          cases B with
          | nil =>
            simp only [List.length_append] at hcnd
            simp at hcnd
          | cons b0 B2 =>
            simp only [List.getElem?_cons_zero] at h
            rw [wfFrom_cons] at wfB
            by_cases hbv : b0.value = v
            · rw [if_pos hbv, erase_mid] at h
              cases h
              show wfFrom 0 (A.dropLast ++ b0 :: B2) = true
              rw [wfFrom_append, wfFrom_cons]
              exact ⟨wfA2.1, show nextStart 0 A.dropLast ≤ b0.end_ by omega, wfB.2⟩
            · rw [if_neg hbv] at h
              simp only [getAt_mid] at h; rw [set_mid] at h
              cases h
              show wfFrom 0 (A.dropLast ++ (⟨ra.end_ + 1, v⟩ : InternalRun α)
                :: b0 :: B2) = true
              rw [wfFrom_append, wfFrom_cons, wfFrom_cons]
              exact ⟨wfA2.1, show nextStart 0 A.dropLast ≤ ra.end_ + 1 by omega,
                show ra.end_ + 1 + 1 ≤ b0.end_ by omega, wfB.2⟩
        · rw [if_neg hcnd] at h
          simp only [getAt_mid] at h; rw [set_mid] at h
          cases h
          show wfFrom 0 (A.dropLast ++ (⟨ra.end_ + 1, v⟩ : InternalRun α) :: B) = true
          rw [wfFrom_append, wfFrom_cons]
          refine ⟨wfA2.1, show nextStart 0 A.dropLast ≤ ra.end_ + 1 by omega, ?_⟩
          show wfFrom (ra.end_ + 1 + 1) B = true
          have harith : ra.end_ + 1 + 1 = rp.end_ + 1 := by omega
          rw [harith]
          exact wfB
      · rw [if_neg hmv] at h
        simp only [getAt_mid_succ] at h
        by_cases hcnd : A.length < (A ++ rp :: B).length - 1
        · rw [if_pos hcnd] at h
          cases B with
          | nil =>
            simp only [List.length_append] at hcnd
            simp at hcnd
          | cons b0 B2 =>
            simp only [List.getElem?_cons_zero] at h
            rw [wfFrom_cons] at wfB
            by_cases hbv : b0.value = v
            · rw [if_pos hbv, erase_mid] at h
              cases h
              show wfFrom 0 (A ++ b0 :: B2) = true
              rw [wfFrom_append, wfFrom_cons]
              exact ⟨wfA, show nextStart 0 A ≤ b0.end_ by omega, wfB.2⟩
            · rw [if_neg hbv] at h
              simp only [getAt_mid] at h; rw [set_mid] at h
              cases h
              show wfFrom 0 (A ++ (⟨rp.end_, v⟩ : InternalRun α) :: b0 :: B2) = true
              rw [wfFrom_append, wfFrom_cons, wfFrom_cons]
              exact ⟨wfA, show nextStart 0 A ≤ rp.end_ by omega,
                show rp.end_ + 1 ≤ b0.end_ by omega, wfB.2⟩
        · rw [if_neg hcnd] at h
          simp only [getAt_mid] at h; rw [set_mid] at h
          cases h
          show wfFrom 0 (A ++ (⟨rp.end_, v⟩ : InternalRun α) :: B) = true
          rw [wfFrom_append, wfFrom_cons]
          exact ⟨wfA, show nextStart 0 A ≤ rp.end_ by omega, wfB⟩
    · rw [if_neg hp0] at h
      simp only [getAt_mid_succ] at h
      by_cases hcnd : A.length < (A ++ rp :: B).length - 1
      · rw [if_pos hcnd] at h
        cases B with
        | nil =>
          simp only [List.length_append] at hcnd
          simp at hcnd
        | cons b0 B2 =>
          simp only [List.getElem?_cons_zero] at h
          rw [wfFrom_cons] at wfB
          by_cases hbv : b0.value = v
          · rw [if_pos hbv, erase_mid] at h
            cases h
            show wfFrom 0 (A ++ b0 :: B2) = true
            rw [wfFrom_append, wfFrom_cons]
            exact ⟨wfA, show nextStart 0 A ≤ b0.end_ by omega, wfB.2⟩
          · rw [if_neg hbv] at h
            simp only [getAt_mid] at h; rw [set_mid] at h
            cases h
            show wfFrom 0 (A ++ (⟨rp.end_, v⟩ : InternalRun α) :: b0 :: B2) = true
            rw [wfFrom_append, wfFrom_cons, wfFrom_cons]
            exact ⟨wfA, show nextStart 0 A ≤ rp.end_ by omega,
              show rp.end_ + 1 ≤ b0.end_ by omega, wfB.2⟩
      · rw [if_neg hcnd] at h
        simp only [getAt_mid] at h; rw [set_mid] at h
        cases h
        show wfFrom 0 (A ++ (⟨rp.end_, v⟩ : InternalRun α) :: B) = true
        rw [wfFrom_append, wfFrom_cons]
        exact ⟨wfA, show nextStart 0 A ≤ rp.end_ by omega, wfB⟩
  rw [if_neg hsz] at h
  by_cases hst : i = nextStart 0 A
  · rw [if_pos hst] at h
    by_cases hp0 : 0 < A.length
    · rw [if_pos hp0] at h
      have hAne : A ≠ [] := by
        intro hAnil
        rw [hAnil] at hp0
        simp at hp0
      obtain ⟨ra, hra⟩ : ∃ ra, A.getLast? = some ra :=
        Option.isSome_iff_exists.mp (List.getLast?_isSome.mpr hAne)
      have hpred : (A ++ rp :: B)[A.length - 1]? = some ra := by
        rw [getLast_mid hAne]
        exact hra
      simp only [hpred] at h
      have hnsa : nextStart 0 A = ra.end_ + 1 := nextStart_of_getLast hra
      have hA2 := List.dropLast_append_getLast? ra hra
      have hA2len : A.dropLast.length = A.length - 1 := by
        rw [List.length_dropLast]
      have wfA2 : wfFrom 0 (A.dropLast ++ [ra]) = true := by
        rw [hA2]
        exact wfA
      rw [wfFrom_append, wfFrom_singleton] at wfA2
      by_cases hmv : ra.value = v
      · rw [if_pos hmv] at h
        have hsplit : A ++ rp :: B = A.dropLast ++ ra :: rp :: B := by
          conv_lhs => rw [← hA2]
          rw [List.append_assoc, List.singleton_append]
        rw [hsplit, ← hA2len, set_mid] at h
        cases h
        show wfFrom 0 (A.dropLast ++ (⟨ra.end_ + 1, ra.value⟩ : InternalRun α)
          :: rp :: B) = true
        rw [wfFrom_append, wfFrom_cons, wfFrom_cons]
        exact ⟨wfA2.1, show nextStart 0 A.dropLast ≤ ra.end_ + 1 by omega,
          show ra.end_ + 1 + 1 ≤ rp.end_ by omega, wfB⟩
      · rw [if_neg hmv] at h
        rw [insert_mid] at h
        cases h
        show wfFrom 0 (A ++ (⟨nextStart 0 A, v⟩ : InternalRun α) :: rp :: B) = true
        rw [wfFrom_append, wfFrom_cons, wfFrom_cons]
        exact ⟨wfA, le_refl _, show nextStart 0 A + 1 ≤ rp.end_ by omega, wfB⟩
    · rw [if_neg hp0] at h
      have hAnil : A = [] := by
        cases A with
        | nil => rfl
        | cons a A2 => simp at hp0
      rw [hAnil] at h
      simp only [List.nil_append, List.insertIdx] at h
      cases h
      show wfFrom 0 ((⟨0, v⟩ : InternalRun α) :: rp :: B) = true
      rw [hAnil] at hsi hsz
      rw [nextStart_nil] at hsi hsz
      rw [wfFrom_cons, wfFrom_cons]
      exact ⟨Nat.zero_le _, show 0 + 1 ≤ rp.end_ by omega, wfB⟩
  · rw [if_neg hst] at h
    by_cases hen : i = rp.end_
    · rw [if_pos hen, set_mid] at h
      have hsplit : A ++ (⟨rp.end_ - 1, rp.value⟩ : InternalRun α) :: B =
          (A ++ [⟨rp.end_ - 1, rp.value⟩]) ++ B := by
        rw [List.append_assoc, List.singleton_append]
      have hlen1 : (A ++ [(⟨rp.end_ - 1, rp.value⟩ : InternalRun α)]).length
          = A.length + 1 := by
        simp
      rw [getAt_mid_succ] at h
      by_cases hcnd : A.length <
          (A ++ (⟨rp.end_ - 1, rp.value⟩ : InternalRun α) :: B).length - 1
      · rw [if_pos hcnd] at h
        cases B with
        | nil =>
          simp only [List.length_append] at hcnd
          simp at hcnd
        | cons b0 B2 =>
          simp only [List.getElem?_cons_zero] at h
          rw [wfFrom_cons] at wfB
          by_cases hbv : b0.value = v
          · rw [if_pos hbv] at h
            cases h
            show wfFrom 0 (A ++ (⟨rp.end_ - 1, rp.value⟩ : InternalRun α)
              :: b0 :: B2) = true
            rw [wfFrom_append, wfFrom_cons]
            refine ⟨wfA, show nextStart 0 A ≤ rp.end_ - 1 by omega, ?_⟩
            show wfFrom (rp.end_ - 1 + 1) (b0 :: B2) = true
            have harith : rp.end_ - 1 + 1 = rp.end_ := by omega
            rw [harith, wfFrom_cons]
            exact ⟨show rp.end_ ≤ b0.end_ by omega, wfB.2⟩
          · rw [if_neg hbv] at h
            rw [hsplit, ← hlen1, insert_mid] at h
            cases h
            show wfFrom 0 ((A ++ [(⟨rp.end_ - 1, rp.value⟩ : InternalRun α)])
              ++ (⟨rp.end_, v⟩ : InternalRun α) :: b0 :: B2) = true
            rw [wfFrom_append, wfFrom_append, wfFrom_singleton, nextStart_concat,
              wfFrom_cons, wfFrom_cons]
            exact ⟨⟨wfA, show nextStart 0 A ≤ rp.end_ - 1 by omega⟩,
              show rp.end_ - 1 + 1 ≤ rp.end_ by omega,
              show rp.end_ + 1 ≤ b0.end_ by omega, wfB.2⟩
      · rw [if_neg hcnd] at h
        rw [hsplit, ← hlen1, insert_mid] at h
        cases h
        show wfFrom 0 ((A ++ [(⟨rp.end_ - 1, rp.value⟩ : InternalRun α)])
          ++ (⟨rp.end_, v⟩ : InternalRun α) :: B) = true
        rw [wfFrom_append, wfFrom_append, wfFrom_singleton, nextStart_concat,
          wfFrom_cons]
        exact ⟨⟨wfA, show nextStart 0 A ≤ rp.end_ - 1 by omega⟩,
          show rp.end_ - 1 + 1 ≤ rp.end_ by omega, wfB⟩
    · rw [if_neg hen, set_mid] at h
      have hsplit : A ++ (⟨i - 1, rp.value⟩ : InternalRun α) :: B =
          (A ++ [⟨i - 1, rp.value⟩]) ++ B := by
        rw [List.append_assoc, List.singleton_append]
      have hlen1 : (A ++ [(⟨i - 1, rp.value⟩ : InternalRun α)]).length
          = A.length + 1 := by
        simp
      rw [hsplit, ← hlen1, insert_mid] at h
      have hsplit2 : (A ++ [(⟨i - 1, rp.value⟩ : InternalRun α)])
          ++ (⟨i, v⟩ : InternalRun α) :: B =
          (A ++ [⟨i - 1, rp.value⟩, ⟨i, v⟩]) ++ B := by
        simp
      have hlen2 : (A ++ [(⟨i - 1, rp.value⟩ : InternalRun α), ⟨i, v⟩]).length
          = A.length + 2 := by
        simp
      rw [hsplit2] at h
      rw [show A.length + 2 = (A ++ [(⟨i - 1, rp.value⟩ : InternalRun α),
        ⟨i, v⟩]).length from hlen2.symm, insert_mid] at h
      cases h
      show wfFrom 0 ((A ++ [(⟨i - 1, rp.value⟩ : InternalRun α), ⟨i, v⟩])
        ++ (⟨rp.end_, rp.value⟩ : InternalRun α) :: B) = true
      have hi1 : nextStart 0 A < i := by omega
      have hie2 : i < rp.end_ := by omega
      rw [wfFrom_append, wfFrom_cons]
      constructor
      · have hsh : A ++ [(⟨i - 1, rp.value⟩ : InternalRun α), ⟨i, v⟩] =
            A ++ (⟨i - 1, rp.value⟩ : InternalRun α) :: [(⟨i, v⟩ : InternalRun α)] :=
          rfl
        rw [hsh, wfFrom_append, wfFrom_cons, wfFrom_singleton]
        exact ⟨wfA, show nextStart 0 A ≤ i - 1 by omega,
          show i - 1 + 1 ≤ i by omega⟩
      · have hns2 : nextStart 0 (A ++ [(⟨i - 1, rp.value⟩ : InternalRun α), ⟨i, v⟩])
            = i + 1 := by
          have hsh2 : A ++ [(⟨i - 1, rp.value⟩ : InternalRun α), ⟨i, v⟩] =
              (A ++ [⟨i - 1, rp.value⟩]) ++ [(⟨i, v⟩ : InternalRun α)] := by
            simp
          rw [hsh2, nextStart_concat]
        rw [hns2]
        exact ⟨show i + 1 ≤ rp.end_ by omega, wfB⟩

/-! ### Reachable tables have strictly increasing end offsets -/

theorem strictIncr_cons2 {a b : Nat} {t : List Nat} :
    strictIncr (a :: b :: t) = true ↔ a < b ∧ strictIncr (b :: t) = true := by
  simp [strictIncr]

theorem wfFrom_iff_head_strictIncr :
    ∀ (l : List (InternalRun α)) (s : Nat),
      wfFrom s l = true ↔
        ((∀ r0, l.head? = some r0 → s ≤ r0.end_) ∧
          strictIncr (l.map (fun r => r.end_)) = true) := by
  intro l
  induction l with
  | nil =>
    intro s
    simp [wfFrom, strictIncr]
  | cons r rest ih =>
    intro s
    rw [wfFrom_cons, ih (r.end_ + 1)]
    cases rest with
    | nil =>
      simp [strictIncr]
    | cons b t =>
      simp only [List.map_cons, List.head?_cons, Option.some_inj, strictIncr_cons2]
      constructor
      · rintro ⟨h1, h2, h3⟩
        exact ⟨fun r0 hr0 => hr0 ▸ h1,
          by have := h2 b rfl; omega, h3⟩
      · rintro ⟨h1, h2, h3⟩
        exact ⟨h1 r rfl, fun r0 hr0 => by subst hr0; omega, h3⟩

theorem valid_iff_strictIncr (rle : RleVec α) :
    rle.Valid ↔ strictIncr rle.ends = true := by
  rw [RleVec.Valid, RleVec.ends, wfFrom_iff_head_strictIncr]
  constructor
  · exact fun h => h.2
  · exact fun h => ⟨fun r0 _ => Nat.zero_le _, h⟩

theorem valid_applyOp {rle rle2 : RleVec α} (hv : rle.Valid) {op : Op α}
    (h : applyOp rle op = .ok rle2) : rle2.Valid := by
  cases op with
  | push v =>
    simp only [applyOp, Except.ok.injEq] at h
    exact h ▸ valid_push hv v
  | push_n n v =>
    simp only [applyOp, Except.ok.injEq] at h
    exact h ▸ valid_push_n hv n v
  | set i v =>
    exact valid_set hv h
  | insert i v =>
    exact valid_insert hv h
  | remove i =>
    simp only [applyOp] at h
    cases hres : rle.remove i with
    | error e =>
      rw [hres] at h
      simp [Except.map] at h
    | ok pr =>
      rw [hres] at h
      simp only [Except.map, Except.ok.injEq] at h
      exact h ▸ valid_remove hv hres

theorem valid_foldlM :
    ∀ (ops : List (Op α)) (acc : RleVec α), acc.Valid →
      ∀ {rle : RleVec α}, ops.foldlM applyOp acc = .ok rle → rle.Valid := by
  intro ops
  induction ops with
  | nil =>
    intro acc hacc rle h
    simp only [List.foldlM_nil, pure, Except.pure, Except.ok.injEq] at h
    exact h ▸ hacc
  | cons op ops ih =>
    intro acc hacc rle h
    rw [List.foldlM_cons] at h
    cases hop : applyOp acc op with
    | error e =>
      rw [hop] at h
      simp [bind, Except.bind] at h
    | ok acc2 =>
      rw [hop] at h
      simp only [bind, Except.bind] at h
      exact ih acc2 (valid_applyOp hacc hop) h

theorem valid_applyOps {ops : List (Op α)} {rle : RleVec α}
    (h : applyOps ops = .ok rle) : rle.Valid :=
  valid_foldlM ops RleVec.new new_valid h

/-! ### Run round-trip machinery -/

/-- C1: the run-minimality claim fails on the code.  The operation sequence
push 1, push 2, push 1, remove 1 (all succeeding) leaves the table with two
adjacent runs that both carry the value 1: the fuse check in remove is
guarded by runs_len() > 2, which is false when exactly two runs remain, so
the two 1-runs are never merged. -/
theorem remove_breaks_run_minimality :
    applyOps [Op.push 1, Op.push 2, Op.push 1, Op.remove 1] =
      .ok (⟨[⟨0, 1⟩, ⟨1, 1⟩]⟩ : RleVec Nat) ∧
    distinctAdj [(⟨0, 1⟩ : InternalRun Nat), ⟨1, 1⟩] = false :=
  ⟨rfl, by decide⟩

/-- C2: remove does not complete without failure on every in-bounds index.
On the table for 1,2,3,4 (length 4, four singleton runs), remove 3 is in
bounds but panics: after deleting the last run, the fuse check reads
self.runs[p] with p = 3 on a 3-element vector, an out-of-bounds vector
access. -/
theorem remove_panics_in_bounds :
    (RleVec.from_slice [1, 2, 3, 4] : RleVec Nat).len = 4 ∧
    (RleVec.from_slice [1, 2, 3, 4] : RleVec Nat).remove 3 =
      .error (oobMsg 3 3) :=
  ⟨rfl, rfl⟩

/-- C3: insert followed by remove at the same index does not restore the
prior table.  Starting from the one-run table for 1,1, insert 1 2 splits it
into three runs; remove 1 returns 2 and the logical values are restored,
but the two surrounding 1-runs are left unfused (run count 2 instead of
the original 1). -/
theorem insert_remove_not_inverse :
    (RleVec.from_slice [1, 1] : RleVec Nat).runs_len = 1 ∧
    (RleVec.from_slice [1, 1] : RleVec Nat).insert 1 2 =
      .ok ⟨[⟨0, 1⟩, ⟨1, 2⟩, ⟨2, 1⟩]⟩ ∧
    (⟨[⟨0, 1⟩, ⟨1, 2⟩, ⟨2, 1⟩]⟩ : RleVec Nat).remove 1 =
      .ok (2, ⟨[⟨0, 1⟩, ⟨1, 1⟩]⟩) ∧
    (⟨[⟨0, 1⟩, ⟨1, 1⟩]⟩ : RleVec Nat).to_vec = [1, 1] ∧
    (⟨[⟨0, 1⟩, ⟨1, 1⟩]⟩ : RleVec Nat).runs_len = 2 :=
  ⟨rfl, rfl, rfl, rfl, rfl⟩

/-- C4: for every valid table and in-bounds index, the panicking positional
accessor (binary search over run ends) returns exactly element i of the
materialized sequence. -/
theorem index_matches_to_vec (rle : RleVec α) (hv : rle.Valid) (i : Nat)
    (hi : i < rle.len) : (rle.index i).toOption = rle.to_vec[i]? := by
  obtain ⟨r, hr, hidx⟩ := index_ok hv hi
  obtain ⟨r2, hr2, he⟩ := expand_getElem hv hi
  rw [hr, Option.some_inj] at hr2
  subst hr2
  rw [hidx, to_vec_eq_expand hv, he]
  rfl

/-- C4 witness: concrete instance on the table for 1,1,2 at index 2. -/
theorem index_matches_to_vec_witness :
    ((RleVec.from_slice [1, 1, 2] : RleVec Nat).index 2).toOption =
      (RleVec.from_slice [1, 1, 2] : RleVec Nat).to_vec[2]? :=
  index_matches_to_vec (RleVec.from_slice [1, 1, 2]) (by decide) 2 (by decide)

/-- C6: building a table by pushing every element of a sequence in order
and materializing it back yields the sequence unchanged. -/
theorem to_vec_from_iter_round_trip (v : List α) :
    (RleVec.from_iter v).to_vec = v := by
  rw [to_vec_eq_expand (valid_from_iter v), expand_from_iter]

/-- C8: the cumulative end offset silently wraps instead of failing.  The
push_n additions carry no overflow check, so under the wrapping arithmetic
of a default release build, pushing usize::MAX zeros and then two more
zeros stores the wrapped end 0: the operation completes and the logical
length collapses from 2^64 - 1 to 1 with no failure. -/
theorem push_n_w_wraps_silently :
    ((RleVec.new : RleVec Nat).push_n_w (usizeSize - 1) 0).len = usizeSize - 1 ∧
    ((RleVec.new : RleVec Nat).push_n_w (usizeSize - 1) 0).push_n_w 2 0 =
      ⟨[⟨0, 0⟩]⟩ ∧
    (((RleVec.new : RleVec Nat).push_n_w (usizeSize - 1) 0).push_n_w 2 0).len = 1 :=
  ⟨rfl, rfl, rfl⟩

/-- C9 counterexample: under the wrapping arithmetic of a default release
build (the faithful model of the unchecked additions in push_n, exactly as
used for the overflow claim), the operation sequence push_n(1, 0),
push_n(usize::MAX, 1), push(2) completes without any failure and reaches a
table whose run end offsets are 0, 2^64 - 1, 0 - not strictly increasing.
The claim as stated, over every non-failing operation sequence, is
therefore false on the code. -/
theorem wrapped_pushes_break_monotonicity :
    ((((RleVec.new : RleVec Nat).push_n_w 1 0).push_n_w (usizeSize - 1) 1).push_n_w
        1 2).ends = [0, usizeSize - 1, 0] ∧
    strictIncr [0, usizeSize - 1, 0] = false :=
  ⟨rfl, by decide⟩

/-- C9 (amended): every table reachable from the empty table by a sequence
of push, push_n, set, insert and remove operations that all complete
without failure, and in which no cumulative end offset overflows `usize`
(the overflow-checked semantics modelled by `applyOps`; a default release
build instead wraps, see `wrapped_pushes_break_monotonicity`), has strictly
increasing run end offsets (all runs non-empty and contiguous). -/
theorem applyOps_ends_strictly_increasing (ops : List (Op α)) (rle : RleVec α)
    (h : applyOps ops = .ok rle) : strictIncr rle.ends = true :=
  (valid_iff_strictIncr rle).mp (valid_applyOps h)

/-- C9 witness: a concrete sequence exercising all five operations. -/
theorem applyOps_ends_strictly_increasing_witness :
    strictIncr (⟨[⟨0, 5⟩, ⟨1, 1⟩, ⟨2, 7⟩, ⟨4, 2⟩]⟩ : RleVec Nat).ends = true :=
  applyOps_ends_strictly_increasing
    [Op.push 1, Op.push 1, Op.push_n 3 2, Op.insert 2 7, Op.set 0 5, Op.remove 3]
    ⟨[⟨0, 5⟩, ⟨1, 1⟩, ⟨2, 7⟩, ⟨4, 2⟩]⟩ (by rfl)

/-- C10: clear empties the table: afterwards the logical length is 0, the
table reports empty, and no runs are stored. -/
theorem clear_empties_table (rle : RleVec α) :
    rle.clear.len = 0 ∧ rle.clear.is_empty = true ∧ rle.clear.runs_len = 0 :=
  ⟨rfl, rfl, rfl⟩

end RleSpec
